import Mathlib

/-!
Verification of the reply-normalization core of the AIWrap chat client
(`normalizeAIContent` and its helpers in `src/pages/ChatApp.tsx`).

The embedding works on `List Char`. Lines are produced by splitting on the
newline character, exactly as `content.split("\n")` does. JavaScript regular
expressions are modelled by explicit scanning functions:
`scanAny f` tests an unanchored pattern `f` at every suffix (regex `.test`),
`wsStarThen f` models a leading whitespace-star followed by `f` with
backtracking, `atLineStarts f` models a start-of-line anchor under the
multiline flag. The whitespace class follows the ECMAScript definition of
the regex class backslash-s, which is also the set trimmed by
`String.prototype.trim`.
-/

namespace AIWrap

abbrev Line := List Char

/-- The ECMAScript whitespace set: the characters matched by the regex
whitespace class and removed by `String.prototype.trim`. -/
def isWS (c : Char) : Bool :=
  let n := c.toNat
  n == 9 || n == 10 || n == 11 || n == 12 || n == 13 || n == 32 || n == 160 ||
  n == 0x1680 || (0x2000 ≤ n && n ≤ 0x200A) || n == 0x2028 || n == 0x2029 ||
  n == 0x202F || n == 0x205F || n == 0x3000 || n == 0xFEFF

/-- The ECMAScript word-character class (letters, digits, underscore),
used for word boundaries. -/
def isWordChar (c : Char) : Bool :=
  let n := c.toNat
  (48 ≤ n && n ≤ 57) || (65 ≤ n && n ≤ 90) || n == 95 || (97 ≤ n && n ≤ 122)

/-- The ECMAScript LineTerminator set: linefeed, carriage return, line
separator, paragraph separator. The regex dot does not match these, and
the multiline start-of-line anchor fires right after each of them. -/
def isLineTerm (c : Char) : Bool :=
  let n := c.toNat
  n == 10 || n == 13 || n == 0x2028 || n == 0x2029

/-- ASCII lower-casing, as used for case-insensitive regex matching of
ASCII patterns. -/
def lowerA (c : Char) : Char :=
  if 65 ≤ c.toNat ∧ c.toNat ≤ 90 then Char.ofNat (c.toNat + 32) else c

/-- Does the pattern (first argument) literally start the text? -/
def startsWithCl : List Char → List Char → Bool
  | [], _ => true
  | _ :: _, [] => false
  | p :: ps, c :: cs => decide (p = c) && startsWithCl ps cs

/-- Case-insensitive variant of `startsWithCl`; the pattern is given in
lower case. -/
def ciMatch : List Char → List Char → Bool
  | [], _ => true
  | _ :: _, [] => false
  | p :: ps, c :: cs => decide (lowerA c = p) && ciMatch ps cs

/-- Test a pattern at every suffix of the text: the semantics of an
unanchored regex `.test`. -/
def scanAny (f : List Char → Bool) : List Char → Bool
  | [] => f []
  | c :: cs => f (c :: cs) || scanAny f cs

/-- Substring test: the pattern occurs somewhere in the text. -/
def containsCl (p : List Char) (s : List Char) : Bool :=
  scanAny (startsWithCl p) s

/-- Whitespace-star followed by `f`, with backtracking: `f` may fire after
any number of leading whitespace characters. -/
def wsStarThen (f : List Char → Bool) : List Char → Bool
  | [] => f []
  | c :: cs => f (c :: cs) || (isWS c && wsStarThen f cs)

/-- Whitespace-plus followed by `f`: at least one whitespace character,
then as `wsStarThen`. -/
def wsPlusThen (f : List Char → Bool) : List Char → Bool
  | [] => false
  | c :: cs => isWS c && wsStarThen f cs

/-- Auxiliary for the multiline start-of-line anchor: test `f` right after
every line terminator character. -/
def afterNl (f : List Char → Bool) : List Char → Bool
  | [] => false
  | c :: cs => (if isLineTerm c = true then f cs else false) || afterNl f cs

/-- The multiline start-of-line anchor: `f` fires at the start of the text
or right after a line terminator. -/
def atLineStarts (f : List Char → Bool) (s : List Char) : Bool :=
  f s || afterNl f s

/-- Prepend a character to the first line of a line list (auxiliary for
`splitNl`; the empty case never arises). -/
def consHead (c : Char) : List Line → List Line
  | [] => [[c]]
  | l :: ls => (c :: l) :: ls

/-- Split on newline characters, as `content.split("\n")`: the empty text
yields one empty line. -/
def splitNl : List Char → List Line
  | [] => [[]]
  | c :: cs =>
    if c = '\n' then [] :: splitNl cs
    else consHead c (splitNl cs)

/-- Join lines with newline separators, as `out.join("\n")`. -/
def joinNl : List Line → List Char
  | [] => []
  | [l] => l
  | l :: ls => l ++ '\n' :: joinNl ls

/-- Remove leading ECMAScript whitespace. -/
def trimLeftJS (l : List Char) : List Char := l.dropWhile isWS

/-- Remove trailing ECMAScript whitespace. -/
def trimRightJS (l : List Char) : List Char := (l.reverse.dropWhile isWS).reverse

/-- `String.prototype.trim`: remove whitespace at both ends. -/
def trimJS (l : List Char) : List Char := trimRightJS (trimLeftJS l)

/-- Is the next character absent or a non-word character (an ECMAScript
word boundary after a word character)? -/
def noWordAt : List Char → Bool
  | [] => true
  | c :: _ => !isWordChar c

/-- The pattern "Copyhljs as a whole word", case-insensitive, at the start
of the text: regex caret-Copyhljs-boundary with the i flag. -/
def copyhljsWB (t : List Char) : Bool :=
  ciMatch "copyhljs".data t && noWordAt (t.drop 8)

/-- The filter of `normalizeAIContent`: drop a line whose trimmed content
is exactly "Copy" or matches the Copyhljs whole-word test. -/
def keepLine (l : Line) : Bool :=
  if trimJS l = "Copy".data then false
  else if copyhljsWB (trimJS l) then false
  else true

/-- The Copyhljs whole-word pattern followed by dot-star and the dollar
anchor, at the start of the text: after the matched word, the match can
only complete when every remaining character is free of line terminators,
since the dot does not cross them and the dollar (no multiline flag)
asserts only the very end of the input. -/
def copyhljsFull (t : List Char) : Bool :=
  ciMatch "copyhljs".data t && noWordAt (t.drop 8) &&
  (t.drop 8).all (fun c => !isLineTerm c)

/-- Does the regex whitespace-plus-Copyhljs-boundary-dot-star-dollar match
at the start of the text? First a mandatory whitespace character, then
optional further whitespace, then the Copyhljs whole-word pattern with its
line-terminator-free tail running to the end of the input. -/
def tailMatch : List Char → Bool
  | [] => false
  | c :: cs => isWS c && wsStarThen copyhljsFull cs

/-- The map of `normalizeAIContent`: replace the first (leftmost) match of
the trailing-Copyhljs regex by the empty string, which truncates the line
at the match, since a completed match always extends to the end of the
input. A position whose tail is blocked by a line terminator does not
match, and the search continues at later positions. -/
def stripCopyhljs : Line → Line
  | [] => []
  | c :: cs => if tailMatch (c :: cs) then [] else c :: stripCopyhljs cs

/-- The cleaned line sequence: split the content on newlines, drop artifact
lines, strip trailing Copyhljs artifacts from the survivors. -/
def cleanedLines (content : List Char) : List Line :=
  ((splitNl content).filter keepLine).map stripCopyhljs

/-- Shell-invocation tokens of the code-line classifier. -/
def shellTok (r : List Char) : Bool :=
  startsWithCl "g++".data r || startsWithCl "./".data r ||
  startsWithCl "npm ".data r || startsWithCl "yarn ".data r ||
  startsWithCl "pnpm ".data r

/-- The unanchored alternatives of the code-line regex, tested at one
position: semicolon, brace, the include token, the std token. -/
def codeNoAnchor (r : List Char) : Bool :=
  startsWithCl ";".data r || startsWithCl "\x7b".data r ||
  startsWithCl "\x7d".data r || startsWithCl "#include".data r ||
  startsWithCl "std::".data r

/-- At least two leading whitespace characters. -/
def twoWsStart : List Char → Bool
  | a :: b :: _ => isWS a && isWS b
  | _ => false

/-- The anchored alternatives of the code-line regex, tested at the start
of the line: indentation, comment markers, shell tokens. -/
def codeAnchored (l : List Char) : Bool :=
  twoWsStart l || wsStarThen (startsWithCl "//".data) l ||
  wsStarThen (startsWithCl "#".data) l || wsStarThen shellTok l

/-- The code-line classifier `isCodeLine` of `normalizeAIContent`: a line
is code-like when it is non-empty after trimming and the code-line regex
matches. -/
def isCodeLine (line : Line) : Bool :=
  !(trimJS line).isEmpty && (scanAny codeNoAnchor line || codeAnchored line)

/-- The pattern int-whitespace-main-whitespace-parenthesis of the cpp rule,
tested at one position. -/
def intMainAt (r : List Char) : Bool :=
  startsWithCl "int".data r &&
  wsPlusThen
    (fun u => startsWithCl "main".data u &&
      wsStarThen (startsWithCl "(".data) (u.drop 4))
    (r.drop 3)

/-- Rule 1 of `detectLang`: include token, std token, or an int-main
pattern anywhere in the blob. -/
def cppHit (t : List Char) : Bool :=
  containsCl "#include".data t || containsCl "std::".data t ||
  scanAny intMainAt t

/-- The bash tokens of rule 2: g++, a relative invocation, or the whole
word bash. -/
def bashTok (r : List Char) : Bool :=
  startsWithCl "g++".data r || startsWithCl "./".data r ||
  (startsWithCl "bash".data r && noWordAt (r.drop 4))

/-- Rule 2 of `detectLang`, a multiline-anchored pattern: some line start,
after optional whitespace, carries a bash token. -/
def bashHit (t : List Char) : Bool :=
  atLineStarts (wsStarThen bashTok) t

/-- An import or export keyword followed by at least one whitespace
character, tested at one position. Both keywords have six characters. -/
def impTok (w : List Char) (r : List Char) : Bool :=
  startsWithCl w r &&
  (match r.drop 6 with
   | [] => false
   | c :: _ => isWS c)

/-- Rule 3 of `detectLang`: anchored (no multiline flag) import or export
keyword after optional leading whitespace, or an arrow token anywhere. -/
def tsHit (t : List Char) : Bool :=
  wsStarThen (impTok "import".data) t || wsStarThen (impTok "export".data) t ||
  containsCl "=>".data t

/-- A def or class keyword followed by at least one whitespace character,
tested at one position. -/
def defTok (w : List Char) (r : List Char) : Bool :=
  startsWithCl w r &&
  (match r.drop w.length with
   | [] => false
   | c :: _ => isWS c)

/-- A colon followed by optional whitespace up to the very end of the
blob (the dollar anchor without the multiline flag), tested at one
position. -/
def colonEndAt (r : List Char) : Bool :=
  startsWithCl ":".data r && wsStarThen List.isEmpty (r.drop 1)

/-- Rule 4 of `detectLang`: anchored def or class keyword, or a final
colon. -/
def pyHit (t : List Char) : Bool :=
  wsStarThen (defTok "def".data) t || wsStarThen (defTok "class".data) t ||
  scanAny colonEndAt t

/-- The language sniffer `detectLang` of `normalizeAIContent`: join the
block lines and apply the four rules in first-match-wins order. -/
def detectLang (block : List Line) : Option String :=
  let text := joinNl block
  if cppHit text then some "cpp"
  else if bashHit text then some "bash"
  else if tsHit text then some "ts"
  else if pyHit text then some "python"
  else none

/-- Three backtick characters: a fence marker. -/
def bt3 : List Char := ['\x60', '\x60', '\x60']

/-- Wrap a code block: a fence-open line carrying the detected tag, the
block lines verbatim, a fence-close line. -/
def wrapBlock (b : List Line) : List Line :=
  (bt3 ++ ((detectLang b).getD "").data) :: b ++ [bt3]

/-- The grouping loop of `normalizeAIContent`, with a fuel parameter
bounding the number of iterations: on a code-like line, the maximal run of
code-like lines becomes one wrapped block; other lines pass through. -/
def passGo : Nat → List Line → List Line
  | _, [] => []
  | 0, _ :: _ => []
  | n + 1, l :: ls =>
    if isCodeLine l then
      wrapBlock ((l :: ls).takeWhile isCodeLine) ++
        passGo n ((l :: ls).dropWhile isCodeLine)
    else l :: passGo n ls

/-- The grouping loop, run with sufficient fuel. -/
def pass (ls : List Line) : List Line := passGo ls.length ls

/-- The global counter of the fallback heuristic: the number of matches of
the hint regex (semicolon, braces, include token, std token) found by a
left-to-right global scan that steps over each match. -/
def hintGo : Nat → List Char → Nat
  | _, [] => 0
  | 0, _ :: _ => 0
  | n + 1, c :: cs =>
    if c = ';' ∨ c = '\x7b' ∨ c = '\x7d' then hintGo n cs + 1
    else if startsWithCl "#include".data (c :: cs) then hintGo n (cs.drop 7) + 1
    else if startsWithCl "std::".data (c :: cs) then hintGo n (cs.drop 4) + 1
    else hintGo n cs

/-- The hint counter, run with sufficient fuel. -/
def hintCount (s : List Char) : Nat := hintGo s.length s

/-- The fallback wrapper: the whole trimmed response between a fence-open
line tagged by the sniffer applied to the cleaned line set and a
fence-close line. -/
def wrapAll (cl : List Line) (res : List Char) : List Char :=
  bt3 ++ ((detectLang cl).getD "").data ++ '\n' :: trimJS res ++ '\n' :: bt3

/-- The final step of `normalizeAIContent`: when the staged output has no
fence marker but more than two lines and at least two hints, wrap the
whole trimmed response; otherwise return the staged output unchanged. -/
def finalize (cl : List Line) (res : List Char) : List Char :=
  if containsCl bt3 res then res
  else if (splitNl res).length > 2 ∧ 2 ≤ hintCount res then wrapAll cl res
  else res

/-- The whole normalization pass on character lists. -/
def normalizeCore (content : List Char) : List Char :=
  finalize (cleanedLines content) (joinNl (pass (cleanedLines content)))

/-- The function `normalizeAIContent` of the source: normalize the reply
text before markdown rendering. -/
def normalizeAIContent (s : String) : String :=
  String.mk (normalizeCore s.data)

/-- A segment of the grouped line sequence: a prose line passed through
verbatim, or a maximal block of code-like lines. -/
inductive Seg
  | prose (l : Line)
  | block (b : List Line)

/-- Render a segment into output lines: prose verbatim, blocks wrapped in
fences. -/
def emitSeg : Seg → List Line
  | .prose l => [l]
  | .block b => wrapBlock b

/-- The unwrapped content of a segment: the added fence lines removed. -/
def segContents : Seg → List Line
  | .prose l => [l]
  | .block b => b

/-- The grouping loop, producing the segment structure instead of the
rendered lines, with a fuel parameter. -/
def groupGo : Nat → List Line → List Seg
  | _, [] => []
  | 0, _ :: _ => []
  | n + 1, l :: ls =>
    if isCodeLine l then
      Seg.block ((l :: ls).takeWhile isCodeLine) ::
        groupGo n ((l :: ls).dropWhile isCodeLine)
    else Seg.prose l :: groupGo n ls

/-- The segment structure of a cleaned line sequence. -/
def groupSegs (ls : List Line) : List Seg := groupGo ls.length ls

/-- No hint pattern occurs in the text: no semicolon, no brace, no include
token, no std token. -/
def hintFree (s : List Char) : Prop :=
  containsCl ";".data s = false ∧ containsCl "\x7b".data s = false ∧
  containsCl "\x7d".data s = false ∧ containsCl "#include".data s = false ∧
  containsCl "std::".data s = false

/-- The code-line policy in the words of the specification: non-empty
after trimming, and at least one signal (a semicolon, a brace, the include
token, the std token anywhere; two leading whitespace characters; a
comment marker or a shell token after optional leading whitespace). -/
def codeLineSpec (l : Line) : Prop :=
  trimJS l ≠ [] ∧
  (containsCl ";".data l = true ∨ containsCl "\x7b".data l = true ∨
   containsCl "\x7d".data l = true ∨ containsCl "#include".data l = true ∨
   containsCl "std::".data l = true ∨ twoWsStart l = true ∨
   startsWithCl "//".data (trimLeftJS l) = true ∨
   startsWithCl "#".data (trimLeftJS l) = true ∨
   shellTok (trimLeftJS l) = true)

/-- Rule 3 of the language sniffer as it actually behaves: after skipping
the leading whitespace of the whole joined blob (newlines included), the
text starts with an import or export keyword followed by a whitespace
character, or the arrow token occurs anywhere in the blob. -/
def tsRuleSpec (t : List Char) : Prop :=
  impTok "import".data (trimLeftJS t) = true ∨
  impTok "export".data (trimLeftJS t) = true ∨
  containsCl "=>".data t = true

/-! ### Basic facts about the scanning primitives -/

theorem startsWithCl_append {p r : List Char} (u : List Char)
    (h : startsWithCl p r = true) : startsWithCl p (r ++ u) = true := by
  induction p generalizing r with
  | nil => rfl
  | cons p0 ps ih =>
    cases r with
    | nil => simp [startsWithCl] at h
    | cons c cs =>
      simp only [startsWithCl, Bool.and_eq_true, decide_eq_true_eq] at h
      simp only [List.cons_append, startsWithCl, Bool.and_eq_true,
        decide_eq_true_eq]
      exact ⟨h.1, ih h.2⟩

theorem startsWithCl_self (p u : List Char) :
    startsWithCl p (p ++ u) = true := by
  induction p with
  | nil => rfl
  | cons c cs ih => simp [startsWithCl, ih]

theorem startsWithCl_split {p a b : List Char} (hn : '\n' ∉ p)
    (h : startsWithCl p (a ++ '\n' :: b) = true) : startsWithCl p a = true := by
  induction p generalizing a with
  | nil => rfl
  | cons p0 ps ih =>
    cases a with
    | nil =>
      simp only [List.nil_append, startsWithCl, Bool.and_eq_true,
        decide_eq_true_eq] at h
      exact absurd (h.1 ▸ List.mem_cons_self _ _) hn
    | cons c cs =>
      simp only [List.cons_append, startsWithCl, Bool.and_eq_true,
        decide_eq_true_eq] at h ⊢
      exact ⟨h.1, ih (fun hm => hn (List.mem_cons_of_mem _ hm)) h.2⟩

theorem scanAny_cons (f : List Char → Bool) (c : Char) (cs : List Char) :
    scanAny f (c :: cs) = (f (c :: cs) || scanAny f cs) := rfl

theorem scanAny_of_suffix {f : List Char → Bool} {s : List Char}
    (h : f s = true) : scanAny f s = true := by
  cases s with
  | nil => exact h
  | cons c cs => simp [scanAny, h]

theorem scanAny_mono {f g : List Char → Bool}
    (hfg : ∀ r, f r = true → g r = true) {l : List Char}
    (h : scanAny f l = true) : scanAny g l = true := by
  induction l with
  | nil => exact hfg [] h
  | cons c cs ih =>
    simp only [scanAny, Bool.or_eq_true] at h ⊢
    cases h with
    | inl h => exact Or.inl (hfg _ h)
    | inr h => exact Or.inr (ih h)

theorem scanAny_or (f g : List Char → Bool) (l : List Char) :
    scanAny (fun r => f r || g r) l = (scanAny f l || scanAny g l) := by
  induction l with
  | nil => rfl
  | cons c cs ih =>
    simp only [scanAny, ih]
    cases f (c :: cs) <;> cases g (c :: cs) <;>
      cases scanAny f cs <;> cases scanAny g cs <;> rfl

theorem containsCl_of_startsWith {p s : List Char}
    (h : startsWithCl p s = true) : containsCl p s = true :=
  scanAny_of_suffix h

theorem containsCl_tail {p : List Char} {c : Char} {cs : List Char}
    (h : containsCl p cs = true) : containsCl p (c :: cs) = true := by
  simp only [containsCl, scanAny, Bool.or_eq_true]
  exact Or.inr h

theorem containsCl_append_right {p b : List Char} (a : List Char)
    (h : containsCl p b = true) : containsCl p (a ++ b) = true := by
  induction a with
  | nil => exact h
  | cons c cs ih => exact containsCl_tail ih

theorem containsCl_append_left {p a : List Char} (u : List Char)
    (h : containsCl p a = true) : containsCl p (a ++ u) = true := by
  induction a with
  | nil =>
    cases p with
    | nil => exact containsCl_of_startsWith rfl
    | cons q qs => simp [containsCl, scanAny, startsWithCl] at h
  | cons c cs ih =>
    simp only [containsCl, scanAny, Bool.or_eq_true] at h
    simp only [List.cons_append, containsCl, scanAny, Bool.or_eq_true]
    cases h with
    | inl h => exact Or.inl (startsWithCl_append u h)
    | inr h => exact Or.inr (ih h)

theorem containsCl_split {p a b : List Char} (hp : p ≠ []) (hn : '\n' ∉ p)
    (h : containsCl p (a ++ '\n' :: b) = true) :
    containsCl p a = true ∨ containsCl p b = true := by
  induction a with
  | nil =>
    simp only [List.nil_append, containsCl, scanAny, Bool.or_eq_true] at h
    cases h with
    | inl h =>
      cases p with
      | nil => exact absurd rfl hp
      | cons p0 ps =>
        simp only [startsWithCl, Bool.and_eq_true, decide_eq_true_eq] at h
        exact absurd (h.1 ▸ List.mem_cons_self _ _) hn
    | inr h => exact Or.inr h
  | cons c cs ih =>
    simp only [List.cons_append, containsCl, scanAny, Bool.or_eq_true] at h
    cases h with
    | inl h =>
      exact Or.inl (containsCl_of_startsWith (startsWithCl_split hn h))
    | inr h =>
      cases ih h with
      | inl h2 => exact Or.inl (containsCl_tail h2)
      | inr h2 => exact Or.inr h2

/-! ### Facts about whitespace-star backtracking -/

theorem wsStarThen_eq_dropWhile {f : List Char → Bool}
    (hf : ∀ c cs, isWS c = true → f (c :: cs) = false) (l : List Char) :
    wsStarThen f l = f (trimLeftJS l) := by
  induction l with
  | nil => rfl
  | cons c cs ih =>
    have h1 : wsStarThen f (c :: cs) =
        (f (c :: cs) || (isWS c && wsStarThen f cs)) := rfl
    by_cases hw : isWS c = true
    · have h2 : trimLeftJS (c :: cs) = trimLeftJS cs := by
        simp [trimLeftJS, List.dropWhile_cons, hw]
      rw [h1, hf c cs hw, hw, Bool.false_or, Bool.true_and, ih, h2]
    · simp only [Bool.not_eq_true] at hw
      have h2 : trimLeftJS (c :: cs) = c :: cs := by
        simp [trimLeftJS, List.dropWhile_cons, hw]
      rw [h1, hw, Bool.false_and, Bool.or_false, h2]

/-! ### Splitting on newlines and joining with newlines -/

theorem splitNl_ne_nil (x : List Char) : splitNl x ≠ [] := by
  cases x with
  | nil => simp [splitNl]
  | cons c cs =>
    simp only [splitNl]
    split
    · simp
    · rcases splitNl cs with _ | ⟨l, ls⟩ <;> simp [consHead]

theorem splitNl_no_nl {x : List Char} {l : Line} (h : l ∈ splitNl x) :
    '\n' ∉ l := by
  induction x generalizing l with
  | nil =>
    simp only [splitNl, List.mem_singleton] at h
    simp [h]
  | cons c cs ih =>
    by_cases hc : c = '\n'
    · rw [splitNl, if_pos hc] at h
      rcases List.mem_cons.1 h with h | h
      · simp [h]
      · exact ih h
    · rw [splitNl, if_neg hc] at h
      rcases hsp : splitNl cs with _ | ⟨l0, ls⟩
      · exact absurd hsp (splitNl_ne_nil cs)
      · rw [hsp, consHead] at h
        rcases List.mem_cons.1 h with h | h
        · subst h
          intro hmem
          rcases List.mem_cons.1 hmem with h2 | h2
          · exact hc h2.symm
          · exact ih (hsp ▸ List.mem_cons_self l0 ls) h2
        · exact ih (hsp ▸ List.mem_cons_of_mem l0 h)

theorem joinNl_cons {rest : List Line} (a : Line) (h : rest ≠ []) :
    joinNl (a :: rest) = a ++ '\n' :: joinNl rest := by
  cases rest with
  | nil => exact absurd rfl h
  | cons b bs => rfl

theorem joinNl_cons_exists (a : Line) (rest : List Line) :
    ∃ u, joinNl (a :: rest) = a ++ u := by
  cases rest with
  | nil => exact ⟨[], by simp [joinNl]⟩
  | cons b bs => exact ⟨'\n' :: joinNl (b :: bs), rfl⟩

theorem splitNl_of_no_nl {l : Line} (h : '\n' ∉ l) : splitNl l = [l] := by
  induction l with
  | nil => rfl
  | cons c cs ih =>
    have hc : ¬(c = '\n') := fun hx => h (hx ▸ List.mem_cons_self _ _)
    rw [splitNl, if_neg hc, ih (fun hm => h (List.mem_cons_of_mem _ hm)),
      consHead]

theorem splitNl_append_cons {a : Line} (t : List Char) (h : '\n' ∉ a) :
    splitNl (a ++ '\n' :: t) = a :: splitNl t := by
  induction a with
  | nil => simp [splitNl]
  | cons c cs ih =>
    have hc : ¬(c = '\n') := fun hx => h (hx ▸ List.mem_cons_self _ _)
    have ih2 := ih (fun hm => h (List.mem_cons_of_mem _ hm))
    rw [List.cons_append, splitNl, if_neg hc, ih2, consHead]

theorem splitNl_joinNl {out : List Line} (hne : out ≠ [])
    (h : ∀ l ∈ out, '\n' ∉ l) : splitNl (joinNl out) = out := by
  induction out with
  | nil => exact absurd rfl hne
  | cons a rest ih =>
    cases rest with
    | nil => exact splitNl_of_no_nl (h a (List.mem_cons_self _ _))
    | cons b bs =>
      rw [joinNl_cons a (by simp),
        splitNl_append_cons _ (h a (List.mem_cons_self _ _)),
        ih (by simp) (fun l hl => h l (List.mem_cons_of_mem _ hl))]

/-! ### Facts about trimming -/

theorem trimRightJS_decomp (x : List Char) :
    ∃ u, (∀ c ∈ u, isWS c = true) ∧ trimRightJS x ++ u = x := by
  refine ⟨(x.reverse.takeWhile isWS).reverse, ?_, ?_⟩
  · intro c hc
    rw [List.mem_reverse] at hc
    exact List.mem_takeWhile_imp hc
  · rw [trimRightJS, ← List.reverse_append, List.takeWhile_append_dropWhile,
      List.reverse_reverse]

theorem trimRightJS_eq_nil {x : List Char} (h : trimRightJS x = []) :
    ∀ c ∈ x, isWS c = true := by
  intro c hc
  rw [trimRightJS, List.reverse_eq_nil_iff, List.dropWhile_eq_nil_iff] at h
  exact h c (List.mem_reverse.2 hc)

theorem trimRightJS_of_nonWS {x : List Char} (h : ∀ c ∈ x, isWS c = false) :
    trimRightJS x = x := by
  rw [trimRightJS, List.dropWhile_eq_self_iff.2, List.reverse_reverse]
  intro hx
  have hmem : x.reverse.get ⟨0, hx⟩ ∈ x :=
    List.mem_reverse.1 (x.reverse.get_mem 0 hx)
  have := h _ hmem
  intro hws
  rw [this] at hws
  exact Bool.false_ne_true hws

theorem trimRightJS_append (a b : List Char) :
    trimRightJS (a ++ b) =
      if trimRightJS b = [] then trimRightJS a else a ++ trimRightJS b := by
  rw [trimRightJS, List.reverse_append, List.dropWhile_append]
  split
  · next hemp =>
    rw [List.isEmpty_iff] at hemp
    have hb : trimRightJS b = [] := by
      rw [trimRightJS, hemp, List.reverse_nil]
    rw [if_pos hb, trimRightJS]
  · next hemp =>
    rw [List.isEmpty_iff] at hemp
    have hb : trimRightJS b ≠ [] := by
      rw [trimRightJS]
      simp only [ne_eq, List.reverse_eq_nil_iff]
      exact hemp
    rw [if_neg hb, List.reverse_append, List.reverse_reverse, trimRightJS]

theorem trimJS_nil : trimJS [] = [] := rfl

theorem trimJS_cons_ws {c : Char} (hw : isWS c = true) (cs : List Char) :
    trimJS (c :: cs) = trimJS cs := by
  simp [trimJS, trimLeftJS, List.dropWhile_cons, hw]

theorem trimJS_cons_nonws {c : Char} (hw : isWS c = false) (cs : List Char) :
    trimJS (c :: cs) = trimRightJS (c :: cs) := by
  simp [trimJS, trimLeftJS, List.dropWhile_cons, hw]

/-! ### Case-insensitive matching and character classes -/

theorem lowerA_of_ws {c : Char} (h : isWS c = true) : lowerA c = c := by
  rw [lowerA, if_neg]
  intro hr
  simp only [isWS, Bool.or_eq_true, Nat.beq_eq_true_eq, Bool.and_eq_true,
    decide_eq_true_eq] at h
  omega

theorem word_not_ws {c : Char} (h : isWordChar c = true) : isWS c = false := by
  simp only [isWordChar, Bool.or_eq_true, Nat.beq_eq_true_eq, Bool.and_eq_true,
    decide_eq_true_eq] at h
  rw [Bool.eq_false_iff]
  intro hws
  simp only [isWS, Bool.or_eq_true, Nat.beq_eq_true_eq, Bool.and_eq_true,
    decide_eq_true_eq] at hws
  omega

theorem ciMatch_length {p t : List Char} (h : ciMatch p t = true) :
    p.length ≤ t.length := by
  induction p generalizing t with
  | nil => simp
  | cons q qs ih =>
    cases t with
    | nil => simp [ciMatch] at h
    | cons c cs =>
      simp only [ciMatch, Bool.and_eq_true] at h
      simpa using ih h.2

theorem ciMatch_append {p t : List Char} (u : List Char)
    (h : ciMatch p t = true) : ciMatch p (t ++ u) = true := by
  induction p generalizing t with
  | nil => rfl
  | cons q qs ih =>
    cases t with
    | nil => simp [ciMatch] at h
    | cons c cs =>
      simp only [ciMatch, Bool.and_eq_true] at h
      simp only [List.cons_append, ciMatch, Bool.and_eq_true]
      exact ⟨h.1, ih h.2⟩

theorem ciMatch_of_append {p t u : List Char} (hl : p.length ≤ t.length)
    (h : ciMatch p (t ++ u) = true) : ciMatch p t = true := by
  induction p generalizing t with
  | nil => rfl
  | cons q qs ih =>
    cases t with
    | nil => simp at hl
    | cons c cs =>
      simp only [List.cons_append, ciMatch, Bool.and_eq_true] at h
      simp only [ciMatch, Bool.and_eq_true]
      exact ⟨h.1, ih (by simpa using hl) h.2⟩

theorem ciMatch_ws_free {p t : List Char} (h : ciMatch p t = true)
    (hp : ∀ q ∈ p, isWS q = false) : ∀ c ∈ t.take p.length, isWS c = false := by
  induction p generalizing t with
  | nil => simp
  | cons q qs ih =>
    cases t with
    | nil => simp [ciMatch] at h
    | cons c cs =>
      simp only [ciMatch, Bool.and_eq_true, decide_eq_true_eq] at h
      intro d hd
      simp only [List.length_cons, List.take_succ_cons, List.mem_cons] at hd
      rcases hd with hd | hd
      · subst hd
        by_cases hws : isWS d = true
        · rw [lowerA_of_ws hws] at h
          have hq := hp q (List.mem_cons_self _ _)
          rw [h.1, hq] at hws
          exact absurd hws (by simp)
        · simpa using hws
      · exact ih h.2 (fun r hr => hp r (List.mem_cons_of_mem _ hr)) d hd

theorem copyhljs_chars_not_ws : ∀ q ∈ "copyhljs".data, isWS q = false := by
  decide

/-- The characters a case-insensitive Copyhljs match consumes are not
whitespace, hence right-trimming keeps at least eight characters. -/
theorem copyhljsWB_head_len {t : List Char} (h : copyhljsWB t = true) :
    8 ≤ t.length ∧ ∀ c ∈ t.take 8, isWS c = false := by
  simp only [copyhljsWB, Bool.and_eq_true] at h
  refine ⟨ciMatch_length h.1, ?_⟩
  have := ciMatch_ws_free h.1 copyhljs_chars_not_ws
  simpa using this

/-! ### The artifact strip: structure of the truncation -/

theorem strip_cases (l : Line) :
    stripCopyhljs l = l ∨
      ∃ q, stripCopyhljs l = l.take q ∧ tailMatch (l.drop q) = true := by
  induction l with
  | nil => exact Or.inl rfl
  | cons c cs ih =>
    by_cases hm : tailMatch (c :: cs) = true
    · refine Or.inr ⟨0, ?_, by simpa using hm⟩
      simp [stripCopyhljs, hm]
    · rw [stripCopyhljs, if_neg hm]
      rcases ih with ih | ⟨q, hq1, hq2⟩
      · exact Or.inl (by rw [ih])
      · exact Or.inr ⟨q + 1, by rw [hq1, List.take_succ_cons],
          by simpa using hq2⟩

theorem strip_isPrefix (l : Line) : ∃ u, stripCopyhljs l ++ u = l := by
  rcases strip_cases l with h | ⟨q, hq, _⟩
  · exact ⟨[], by simp [h]⟩
  · exact ⟨l.drop q, by rw [hq, List.take_append_drop]⟩

/-- Core of the artifact-removal analysis: if the strip truncates a line at
a whitespace-Copyhljs match and the truncated line trims to a Copyhljs
whole-word match, then the original line already trimmed to one. -/
theorem copyhljsWB_trim_core {t : List Char} {q : Nat}
    (htm : tailMatch (t.drop q) = true)
    (h : copyhljsWB (trimRightJS (t.take q)) = true) :
    copyhljsWB (trimRightJS t) = true := by
  have hpatlen : ("copyhljs".data).length = 8 := by decide
  obtain ⟨hP8, _⟩ := copyhljsWB_head_len h
  simp only [copyhljsWB, Bool.and_eq_true] at h
  obtain ⟨w1, hw1ws, hw1⟩ := trimRightJS_decomp (t.take q)
  -- the trimmed truncation is a prefix of the whole line
  have hPt : trimRightJS (t.take q) ++ (w1 ++ t.drop q) = t := by
    rw [← List.append_assoc, hw1, List.take_append_drop]
  have hcit : ciMatch "copyhljs".data t = true := by
    rw [← hPt]; exact ciMatch_append _ h.1
  have ht8 : 8 ≤ t.length := hpatlen ▸ ciMatch_length hcit
  have hq8 : 8 ≤ q := by
    have h1 := congrArg List.length hw1
    rw [List.length_append] at h1
    have h2 : (t.take q).length = min q t.length := List.length_take q t
    omega
  -- decompose the line after its first eight characters
  set C := t.take 8 with hCdef
  set r := t.drop 8 with hrdef
  have hCr : C ++ r = t := List.take_append_drop 8 t
  have hC8 : C.length = 8 := by
    rw [hCdef, List.length_take]; omega
  have hCnws : ∀ c ∈ C, isWS c = false := by
    have := ciMatch_ws_free hcit copyhljs_chars_not_ws
    rw [hpatlen] at this
    exact this
  have htrC : trimRightJS C = C := trimRightJS_of_nonWS hCnws
  have hciC : ciMatch "copyhljs".data C = true := by
    have h6 : ciMatch "copyhljs".data (C ++ r) = true := by rw [hCr]; exact hcit
    exact ciMatch_of_append (by omega) h6
  rw [← hCr, trimRightJS_append]
  rcases htrr : trimRightJS r with _ | ⟨d, rr⟩
  · -- everything after the match is whitespace: the trimmed line is the
    -- match itself, with the boundary at the end of the line
    rw [if_pos rfl, htrC]
    simp only [copyhljsWB, Bool.and_eq_true]
    refine ⟨hciC, ?_⟩
    have : C.drop 8 = [] := by
      rw [← hC8]; exact List.drop_length C
    rw [this]; rfl
  · rw [if_neg (by simp)]
    -- the first untrimmed character after the match is the head of the rest
    obtain ⟨u2, hu2ws, hu2⟩ := trimRightJS_decomp r
    rw [htrr] at hu2
    simp only [copyhljsWB, Bool.and_eq_true]
    refine ⟨ciMatch_append _ hciC, ?_⟩
    have hdropC : (C ++ d :: rr).drop 8 = d :: rr := List.drop_left' hC8
    rw [hdropC]
    by_cases hw : isWordChar d = true
    · -- a word character after the match: contradiction with the
      -- truncation point or with the boundary of the truncated match
      exfalso
      have hdws : isWS d = false := word_not_ws hw
      have htakeq : t.take q = C ++ r.take (q - 8) := by
        rw [← hCr, List.take_append_eq_append_take,
          List.take_of_length_le (by omega), hC8]
      have hrd : r = d :: (rr ++ u2) := by rw [← hu2]; simp
      by_cases hq0 : q - 8 = 0
      · -- the truncation cuts exactly at the end of the match
        have hq8' : q = 8 := by omega
        have hdropq : t.drop q = r := by
          rw [hq8', ← hCr, List.drop_left' hC8]
        rw [hdropq, hrd] at htm
        simp only [tailMatch, Bool.and_eq_true] at htm
        rw [hdws] at htm
        exact Bool.false_ne_true htm.1
      · -- the truncation cuts strictly after the match
        have htk : r.take (q - 8) = d :: (rr ++ u2).take (q - 8 - 1) := by
          rw [hrd]
          rcases hq' : q - 8 with _ | q'
          · exact absurd hq' hq0
          · simp
        rcases htin : trimRightJS (r.take (q - 8)) with _ | ⟨e, ee⟩
        · -- the truncated tail trims away: its head would be whitespace
          have hdmem : d ∈ r.take (q - 8) := by
            rw [htk]
            exact List.mem_cons_self _ _
          have hcon := trimRightJS_eq_nil htin d hdmem
          rw [hdws] at hcon
          exact Bool.false_ne_true hcon
        · -- the truncated tail keeps its head: the truncated match has a
          -- word character at its boundary, contradicting the hypothesis
          obtain ⟨u3, hu3ws, hu3⟩ := trimRightJS_decomp (r.take (q - 8))
          rw [htin] at hu3
          have h5 : e :: (ee ++ u3) = d :: (rr ++ u2).take (q - 8 - 1) := by
            have h6 := hu3
            rw [htk] at h6
            simpa using h6
          have hed : e = d := (List.cons_eq_cons.mp h5).1
          have hPform : trimRightJS (t.take q) = C ++ e :: ee := by
            rw [htakeq, trimRightJS_append, if_neg (by rw [htin]; simp),
              htin]
          have hbad := h.2
          rw [hPform, List.drop_left' hC8] at hbad
          simp only [noWordAt] at hbad
          rw [hed, hw] at hbad
          simp at hbad
    · simp only [noWordAt]
      simp only [Bool.not_eq_true] at hw
      simp [hw]

/-- If a line does not trim to a Copyhljs whole-word match, neither does
its artifact-stripped form. -/
theorem copyhljsWB_strip {l : Line} (h : copyhljsWB (trimJS l) = false) :
    copyhljsWB (trimJS (stripCopyhljs l)) = false := by
  induction l with
  | nil => exact h
  | cons c cs ih =>
    by_cases hm : tailMatch (c :: cs) = true
    · rw [stripCopyhljs, if_pos hm]
      decide
    · by_cases hw : isWS c = true
      · rw [stripCopyhljs, if_neg hm, trimJS_cons_ws hw]
        rw [trimJS_cons_ws hw] at h
        exact ih h
      · simp only [Bool.not_eq_true] at hw
        rcases strip_cases (c :: cs) with hs | ⟨q, hq1, hq2⟩
        · rw [hs]; exact h
        · rw [hq1]
          rcases q with _ | q'
          · rw [stripCopyhljs, if_neg hm] at hq1
            simp at hq1
          · rw [List.take_succ_cons, trimJS_cons_nonws hw, Bool.eq_false_iff]
            intro hcon
            rw [trimJS_cons_nonws hw, Bool.eq_false_iff] at h
            exact h (copyhljsWB_trim_core hq2
              (by rw [List.take_succ_cons]; exact hcon))

/-! ### The classifier, the hint counter, and whitespace -/

theorem startsWith_ws_false {p : List Char} {c : Char} {cs : List Char}
    (hpne : p ≠ []) (hp : isWS p.headI = false) (hc : isWS c = true) :
    startsWithCl p (c :: cs) = false := by
  cases p with
  | nil => exact absurd rfl hpne
  | cons p0 ps =>
    simp only [List.headI] at hp
    have hne : ¬(p0 = c) := by
      intro he
      rw [he, hc] at hp
      exact (by simp at hp)
    simp [startsWithCl, hne]

theorem contains_ws_only {p0 : Char} {ps l : List Char}
    (hp : isWS p0 = false) (hl : ∀ c ∈ l, isWS c = true) :
    containsCl (p0 :: ps) l = false := by
  induction l with
  | nil => rfl
  | cons c cs ih =>
    have hc := hl c (List.mem_cons_self _ _)
    rw [containsCl, scanAny,
      startsWith_ws_false (by simp) (by simpa using hp) hc, Bool.false_or]
    exact ih (fun d hd => hl d (List.mem_cons_of_mem _ hd))

theorem all_ws_of_trimJS_nil {l : List Char} (h : trimJS l = []) :
    ∀ c ∈ l, isWS c = true := by
  intro c hc
  rw [trimJS] at h
  have h2 := trimRightJS_eq_nil h
  rw [← List.takeWhile_append_dropWhile isWS l] at hc
  rcases List.mem_append.1 hc with hc | hc
  · exact List.mem_takeWhile_imp hc
  · exact h2 c hc

theorem hintFree_of_not_code {l : Line} (h : isCodeLine l = false) :
    hintFree l := by
  rw [isCodeLine, Bool.and_eq_false_iff] at h
  rcases h with h | h
  · -- the line is whitespace-only
    simp only [Bool.not_eq_false'] at h
    have hws := all_ws_of_trimJS_nil (List.isEmpty_iff.1 h)
    exact ⟨contains_ws_only (by decide) hws, contains_ws_only (by decide) hws,
      contains_ws_only (by decide) hws, contains_ws_only (by decide) hws,
      contains_ws_only (by decide) hws⟩
  · -- the unanchored regex alternatives all fail
    rw [Bool.or_eq_false_iff] at h
    have hscan := h.1
    have noc : ∀ p : List Char,
        (∀ r, startsWithCl p r = true → codeNoAnchor r = true) →
        containsCl p l = false := by
      intro p hsub
      rw [Bool.eq_false_iff]
      intro hcon
      have := scanAny_mono hsub hcon
      rw [hscan] at this
      exact Bool.false_ne_true this
    refine ⟨noc _ ?_, noc _ ?_, noc _ ?_, noc _ ?_, noc _ ?_⟩ <;>
      intro r hr <;> simp [codeNoAnchor, hr]

theorem hintFree_tail {c : Char} {cs : List Char} (h : hintFree (c :: cs)) :
    hintFree cs := by
  obtain ⟨h1, h2, h3, h4, h5⟩ := h
  have tl : ∀ p : List Char, containsCl p (c :: cs) = false →
      containsCl p cs = false := by
    intro p hp
    rw [Bool.eq_false_iff]
    intro hcon
    rw [containsCl_tail hcon] at hp
    exact (by simp at hp)
  exact ⟨tl _ h1, tl _ h2, tl _ h3, tl _ h4, tl _ h5⟩

theorem hintFree_head_facts {c : Char} {cs : List Char}
    (h : hintFree (c :: cs)) :
    ¬(c = ';' ∨ c = '\x7b' ∨ c = '\x7d') ∧
      startsWithCl "#include".data (c :: cs) = false ∧
      startsWithCl "std::".data (c :: cs) = false := by
  obtain ⟨h1, h2, h3, h4, h5⟩ := h
  refine ⟨?_, ?_, ?_⟩
  · rintro (rfl | rfl | rfl)
    · rw [@containsCl_of_startsWith (";".data) (';' :: cs)
        (by simp [startsWithCl])] at h1
      simp at h1
    · rw [@containsCl_of_startsWith ("\x7b".data) ('\x7b' :: cs)
        (by simp [startsWithCl])] at h2
      simp at h2
    · rw [@containsCl_of_startsWith ("\x7d".data) ('\x7d' :: cs)
        (by simp [startsWithCl])] at h3
      simp at h3
  · rw [Bool.eq_false_iff]
    intro hcon
    rw [containsCl_of_startsWith hcon] at h4
    simp at h4
  · rw [Bool.eq_false_iff]
    intro hcon
    rw [containsCl_of_startsWith hcon] at h5
    simp at h5

theorem hintGo_eq_zero {n : Nat} : ∀ {s : List Char}, s.length ≤ n →
    hintFree s → hintGo n s = 0 := by
  induction n with
  | zero =>
    intro s hlen _
    cases s with
    | nil => rfl
    | cons c cs => simp at hlen
  | succ n ih =>
    intro s hlen hf
    cases s with
    | nil => rfl
    | cons c cs =>
      obtain ⟨hh, hinc, hstd⟩ := hintFree_head_facts hf
      rw [hintGo, if_neg hh, if_neg (by rw [hinc]; simp),
        if_neg (by rw [hstd]; simp)]
      exact ih (by simpa using Nat.le_of_succ_le_succ hlen)
        (hintFree_tail hf)

theorem hintCount_eq_zero {s : List Char} (h : hintFree s) :
    hintCount s = 0 := hintGo_eq_zero (Nat.le_refl _) h

theorem contains_nl_join_false {p a b : List Char} (hp : p ≠ [])
    (hn : '\n' ∉ p) (ha : containsCl p a = false)
    (hb : containsCl p b = false) :
    containsCl p (a ++ '\n' :: b) = false := by
  rw [Bool.eq_false_iff]
  intro hcon
  rcases containsCl_split hp hn hcon with h | h
  · rw [ha] at h; exact Bool.false_ne_true h
  · rw [hb] at h; exact Bool.false_ne_true h

theorem hintFree_append_nl {a b : List Char} (ha : hintFree a)
    (hb : hintFree b) : hintFree (a ++ '\n' :: b) :=
  ⟨contains_nl_join_false (by decide) (by decide) ha.1 hb.1,
   contains_nl_join_false (by decide) (by decide) ha.2.1 hb.2.1,
   contains_nl_join_false (by decide) (by decide) ha.2.2.1 hb.2.2.1,
   contains_nl_join_false (by decide) (by decide) ha.2.2.2.1 hb.2.2.2.1,
   contains_nl_join_false (by decide) (by decide) ha.2.2.2.2 hb.2.2.2.2⟩

theorem hintFree_joinNl {ls : List Line} (h : ∀ l ∈ ls, hintFree l) :
    hintFree (joinNl ls) := by
  induction ls with
  | nil => exact ⟨rfl, rfl, rfl, rfl, rfl⟩
  | cons a rest ih =>
    cases rest with
    | nil => exact h a (List.mem_cons_self _ _)
    | cons b bs =>
      rw [joinNl_cons a (by simp)]
      exact hintFree_append_nl (h a (List.mem_cons_self _ _))
        (ih (fun l hl => h l (List.mem_cons_of_mem _ hl)))

/-! ### The grouping loop -/

theorem passGo_nil (n : Nat) : passGo n [] = [] := by cases n <;> rfl

theorem passGo_eq {n : Nat} : ∀ {m : Nat} {ls : List Line}, ls.length ≤ n →
    ls.length ≤ m → passGo n ls = passGo m ls := by
  induction n with
  | zero =>
    intro m ls hn _
    cases ls with
    | nil => rw [passGo_nil, passGo_nil]
    | cons l ls' => simp at hn
  | succ n ih =>
    intro m ls hn hm
    cases ls with
    | nil => rw [passGo_nil, passGo_nil]
    | cons l ls' =>
      cases m with
      | zero => simp at hm
      | succ m' =>
        have hn' : ls'.length ≤ n := by simpa using Nat.le_of_succ_le_succ hn
        have hm' : ls'.length ≤ m' := by simpa using Nat.le_of_succ_le_succ hm
        simp only [passGo]
        by_cases hc : isCodeLine l = true
        · rw [if_pos hc, if_pos hc]
          have hdw : ((l :: ls').dropWhile isCodeLine).length ≤ ls'.length := by
            rw [List.dropWhile_cons_of_pos hc]
            exact (List.dropWhile_sublist isCodeLine).length_le
          congr 1
          exact ih (Nat.le_trans hdw hn') (Nat.le_trans hdw hm')
        · rw [if_neg hc, if_neg hc, ih hn' hm']

theorem pass_cons (l : Line) (ls : List Line) :
    pass (l :: ls) =
      if isCodeLine l then
        wrapBlock ((l :: ls).takeWhile isCodeLine) ++
          pass ((l :: ls).dropWhile isCodeLine)
      else l :: pass ls := by
  rw [pass, List.length_cons]
  simp only [passGo]
  by_cases hc : isCodeLine l = true
  · rw [if_pos hc, if_pos hc]
    congr 1
    apply passGo_eq _ (Nat.le_refl _)
    rw [List.dropWhile_cons_of_pos hc]
    exact (List.dropWhile_sublist isCodeLine).length_le
  · rw [if_neg hc, if_neg hc]
    rfl

theorem passGo_id {n : Nat} : ∀ {ls : List Line}, ls.length ≤ n →
    (∀ l ∈ ls, isCodeLine l = false) → passGo n ls = ls := by
  induction n with
  | zero =>
    intro ls hn _
    cases ls with
    | nil => rfl
    | cons l ls' => simp at hn
  | succ n ih =>
    intro ls hn hall
    cases ls with
    | nil => rfl
    | cons l ls' =>
      have hc : ¬(isCodeLine l = true) := by
        rw [hall l (List.mem_cons_self _ _)]
        simp
      simp only [passGo, if_neg hc]
      rw [ih (by simpa using Nat.le_of_succ_le_succ hn)
        (fun x hx => hall x (List.mem_cons_of_mem _ hx))]

theorem pass_id {ls : List Line} (h : ∀ l ∈ ls, isCodeLine l = false) :
    pass ls = ls := passGo_id (Nat.le_refl _) h

theorem contains_head_fence (tg : List Char) (R : List Line) :
    containsCl bt3 (joinNl ((bt3 ++ tg) :: R)) = true := by
  obtain ⟨u, hu⟩ := joinNl_cons_exists (bt3 ++ tg) R
  rw [hu, List.append_assoc]
  exact containsCl_of_startsWith (startsWithCl_self _ _)

theorem contains_joinNl_cons {p : List Char} (hp : p ≠ []) (l0 : Line)
    {R : List Line} (h : containsCl p (joinNl R) = true) :
    containsCl p (joinNl (l0 :: R)) = true := by
  cases R with
  | nil =>
    exfalso
    cases p with
    | nil => exact hp rfl
    | cons q qs => simp [containsCl, scanAny, startsWithCl, joinNl] at h
  | cons r rs =>
    rw [joinNl_cons l0 (by simp)]
    exact containsCl_append_right l0 (containsCl_tail h)

theorem passGo_fence {n : Nat} : ∀ {ls : List Line} {l : Line},
    ls.length ≤ n → l ∈ ls → isCodeLine l = true →
    containsCl bt3 (joinNl (passGo n ls)) = true := by
  induction n with
  | zero =>
    intro ls l hn hl _
    cases ls with
    | nil => simp at hl
    | cons l0 ls' => simp at hn
  | succ n ih =>
    intro ls l hn hl hc
    cases ls with
    | nil => simp at hl
    | cons l0 ls' =>
      have hn' : ls'.length ≤ n := by simpa using Nat.le_of_succ_le_succ hn
      by_cases hc0 : isCodeLine l0 = true
      · simp only [passGo, if_pos hc0]
        have hshape :
            wrapBlock ((l0 :: ls').takeWhile isCodeLine) ++
              passGo n ((l0 :: ls').dropWhile isCodeLine) =
            (bt3 ++ ((detectLang ((l0 :: ls').takeWhile isCodeLine)).getD
              "").data) ::
              ((l0 :: ls').takeWhile isCodeLine ++ [bt3] ++
                passGo n ((l0 :: ls').dropWhile isCodeLine)) := by
          rw [wrapBlock]
          simp [List.append_assoc]
        rw [hshape]
        exact contains_head_fence _ _
      · have hl' : l ∈ ls' := by
          rcases List.mem_cons.1 hl with rfl | hl'
          · exact absurd hc hc0
          · exact hl'
        simp only [passGo, if_neg hc0]
        exact contains_joinNl_cons (by decide) l0 (ih hn' hl' hc)

theorem passGo_mem {n : Nat} : ∀ {ls : List Line} {l : Line},
    ls.length ≤ n → l ∈ passGo n ls →
    l ∈ ls ∨ l = bt3 ∨ ∃ b, l = bt3 ++ ((detectLang b).getD "").data := by
  induction n with
  | zero =>
    intro ls l hn hl
    cases ls with
    | nil => simp [passGo_nil] at hl
    | cons l0 ls' => simp at hn
  | succ n ih =>
    intro ls l hn hl
    cases ls with
    | nil => simp [passGo_nil] at hl
    | cons l0 ls' =>
      have hn' : ls'.length ≤ n := by simpa using Nat.le_of_succ_le_succ hn
      by_cases hc0 : isCodeLine l0 = true
      · simp only [passGo, if_pos hc0] at hl
        rcases List.mem_append.1 hl with hm | hm
        · rw [wrapBlock] at hm
          rcases List.mem_cons.1 hm with rfl | hm
          · exact Or.inr (Or.inr ⟨_, rfl⟩)
          · rcases List.mem_append.1 hm with hm | hm
            · exact Or.inl ((List.takeWhile_sublist _).subset hm)
            · rw [List.mem_singleton.1 hm]
              exact Or.inr (Or.inl rfl)
        · have hdw : ((l0 :: ls').dropWhile isCodeLine).length ≤ n := by
            rw [List.dropWhile_cons_of_pos hc0]
            exact Nat.le_trans (List.dropWhile_sublist isCodeLine).length_le
              hn'
          rcases ih hdw hm with h | h
          · exact Or.inl ((List.dropWhile_sublist _).subset h)
          · exact Or.inr h
      · simp only [passGo, if_neg hc0] at hl
        rcases List.mem_cons.1 hl with rfl | hm
        · exact Or.inl (List.mem_cons_self _ _)
        · rcases ih hn' hm with h | h
          · exact Or.inl (List.mem_cons_of_mem _ h)
          · exact Or.inr h

theorem passGo_filter {n : Nat} : ∀ {ls : List Line},
    ls.length ≤ n → (∀ l ∈ ls, containsCl bt3 l = false) →
    ∃ tags : List (List Char),
      (passGo n ls).filter (containsCl bt3) =
        tags.flatMap (fun tg => [bt3 ++ tg, bt3]) := by
  induction n with
  | zero =>
    intro ls hn _
    cases ls with
    | nil => exact ⟨[], rfl⟩
    | cons l0 ls' => simp at hn
  | succ n ih =>
    intro ls hn hnf
    cases ls with
    | nil => exact ⟨[], rfl⟩
    | cons l0 ls' =>
      have hn' : ls'.length ≤ n := by simpa using Nat.le_of_succ_le_succ hn
      by_cases hc0 : isCodeLine l0 = true
      · have hdw : ((l0 :: ls').dropWhile isCodeLine).length ≤ n := by
          rw [List.dropWhile_cons_of_pos hc0]
          exact Nat.le_trans (List.dropWhile_sublist isCodeLine).length_le hn'
        obtain ⟨tags, htags⟩ := ih hdw
          (fun x hx => hnf x ((List.dropWhile_sublist _).subset hx))
        refine ⟨((detectLang ((l0 :: ls').takeWhile isCodeLine)).getD
          "").data :: tags, ?_⟩
        simp only [passGo, if_pos hc0]
        have hshape :
            wrapBlock ((l0 :: ls').takeWhile isCodeLine) ++
              passGo n ((l0 :: ls').dropWhile isCodeLine) =
            (bt3 ++ ((detectLang ((l0 :: ls').takeWhile isCodeLine)).getD
              "").data) ::
              ((l0 :: ls').takeWhile isCodeLine ++
                ([bt3] ++ passGo n ((l0 :: ls').dropWhile isCodeLine))) := by
          rw [wrapBlock]
          simp [List.append_assoc]
        rw [hshape, List.filter_cons_of_pos
          (containsCl_of_startsWith (startsWithCl_self _ _)),
          List.filter_append, List.filter_append]
        have htk : ((l0 :: ls').takeWhile isCodeLine).filter
            (containsCl bt3) = [] := by
          rw [List.filter_eq_nil_iff]
          intro x hx
          rw [hnf x ((List.takeWhile_sublist _).subset hx)]
          simp
        have hbt : ([bt3] : List Line).filter (containsCl bt3) = [bt3] := by
          rw [List.filter_cons_of_pos (by decide), List.filter_nil]
        rw [htk, hbt, htags]
        simp [List.flatMap_cons]
      · simp only [passGo, if_neg hc0]
        rw [List.filter_cons_of_neg
          (by rw [hnf l0 (List.mem_cons_self _ _)]; simp)]
        exact ih hn' (fun x hx => hnf x (List.mem_cons_of_mem _ hx))

theorem groupGo_emit {n : Nat} : ∀ {ls : List Line}, ls.length ≤ n →
    (groupGo n ls).flatMap emitSeg = passGo n ls := by
  induction n with
  | zero =>
    intro ls hn
    cases ls with
    | nil => rfl
    | cons l0 ls' => simp at hn
  | succ n ih =>
    intro ls hn
    cases ls with
    | nil => rfl
    | cons l0 ls' =>
      have hn' : ls'.length ≤ n := by simpa using Nat.le_of_succ_le_succ hn
      by_cases hc0 : isCodeLine l0 = true
      · have hdw : ((l0 :: ls').dropWhile isCodeLine).length ≤ n := by
          rw [List.dropWhile_cons_of_pos hc0]
          exact Nat.le_trans (List.dropWhile_sublist isCodeLine).length_le hn'
        simp only [passGo, groupGo, if_pos hc0, List.flatMap_cons]
        rw [ih hdw]
        rfl
      · simp only [passGo, groupGo, if_neg hc0, List.flatMap_cons]
        rw [ih hn']
        rfl

theorem groupGo_contents {n : Nat} : ∀ {ls : List Line}, ls.length ≤ n →
    (groupGo n ls).flatMap segContents = ls := by
  induction n with
  | zero =>
    intro ls hn
    cases ls with
    | nil => rfl
    | cons l0 ls' => simp at hn
  | succ n ih =>
    intro ls hn
    cases ls with
    | nil => rfl
    | cons l0 ls' =>
      have hn' : ls'.length ≤ n := by simpa using Nat.le_of_succ_le_succ hn
      by_cases hc0 : isCodeLine l0 = true
      · have hdw : ((l0 :: ls').dropWhile isCodeLine).length ≤ n := by
          rw [List.dropWhile_cons_of_pos hc0]
          exact Nat.le_trans (List.dropWhile_sublist isCodeLine).length_le hn'
        simp only [groupGo, if_pos hc0, List.flatMap_cons]
        rw [ih hdw]
        simp only [segContents]
        exact List.takeWhile_append_dropWhile isCodeLine (l0 :: ls')
      · simp only [groupGo, if_neg hc0, List.flatMap_cons]
        rw [ih hn']
        rfl

/-! ### The language tags -/

theorem detectLang_cases (b : List Line) :
    detectLang b = none ∨ detectLang b = some "cpp" ∨
      detectLang b = some "bash" ∨ detectLang b = some "ts" ∨
      detectLang b = some "python" := by
  rw [detectLang]
  split_ifs <;> simp

theorem tag_no_nl (b : List Line) :
    '\n' ∉ ((detectLang b).getD "").data := by
  rcases detectLang_cases b with h | h | h | h | h <;> rw [h] <;> decide

theorem pass_no_nl {ls : List Line} (h : ∀ l ∈ ls, '\n' ∉ l) :
    ∀ l ∈ pass ls, '\n' ∉ l := by
  intro l hl
  rcases passGo_mem (Nat.le_refl _) hl with hm | rfl | ⟨b, rfl⟩
  · exact h l hm
  · decide
  · intro hmem
    rcases List.mem_append.1 hmem with hm | hm
    · exact absurd hm (by decide)
    · exact tag_no_nl b hm

/-! ### The cleaned line sequence -/

theorem cleanedLines_mem {content : List Char} {l : Line}
    (h : l ∈ cleanedLines content) :
    ∃ l0, l0 ∈ splitNl content ∧ keepLine l0 = true ∧
      l = stripCopyhljs l0 := by
  rw [cleanedLines] at h
  obtain ⟨l0, hl0, rfl⟩ := List.mem_map.1 h
  obtain ⟨hmem, hkeep⟩ := List.mem_filter.1 hl0
  exact ⟨l0, hmem, hkeep, rfl⟩

theorem cleanedLines_no_nl (content : List Char) :
    ∀ l ∈ cleanedLines content, '\n' ∉ l := by
  intro l hl hnl
  obtain ⟨l0, hmem, _, rfl⟩ := cleanedLines_mem hl
  obtain ⟨u, hu⟩ := strip_isPrefix l0
  exact splitNl_no_nl hmem (hu ▸ List.mem_append_left u hnl)

/-! ### The fallback branch is never taken -/

theorem normalize_staged (content : List Char) :
    normalizeCore content = joinNl (pass (cleanedLines content)) := by
  rw [normalizeCore, finalize]
  by_cases hf : containsCl bt3 (joinNl (pass (cleanedLines content))) = true
  · rw [if_pos hf]
  · have hall : ∀ l ∈ cleanedLines content, isCodeLine l = false := by
      intro l hl
      by_contra hcc
      simp only [Bool.not_eq_false] at hcc
      exact hf (passGo_fence (Nat.le_refl _) hl hcc)
    have hid : pass (cleanedLines content) = cleanedLines content :=
      pass_id hall
    have h0 : hintCount (joinNl (pass (cleanedLines content))) = 0 := by
      rw [hid]
      exact hintCount_eq_zero
        (hintFree_joinNl (fun l hl => hintFree_of_not_code (hall l hl)))
    rw [if_neg hf, if_neg]
    intro hcond
    rw [h0] at hcond
    omega

/-! ### Support for the claims -/

theorem keepLine_facts {l : Line} (h : keepLine l = true) :
    trimJS l ≠ "Copy".data ∧ copyhljsWB (trimJS l) = false := by
  rw [keepLine] at h
  by_cases h1 : trimJS l = "Copy".data
  · rw [if_pos h1] at h
    simp at h
  · rw [if_neg h1] at h
    by_cases h2 : copyhljsWB (trimJS l) = true
    · rw [if_pos h2] at h
      simp at h
    · exact ⟨h1, by simpa using h2⟩

theorem fence_line_facts (b : List Line) :
    copyhljsWB (trimJS (bt3 ++ ((detectLang b).getD "").data)) = false ∧
      trimJS (bt3 ++ ((detectLang b).getD "").data) ≠ "Copy".data := by
  rcases detectLang_cases b with h | h | h | h | h <;> rw [h] <;>
    exact ⟨by decide, by decide⟩

theorem scan_codeNoAnchor_iff (l : List Char) :
    scanAny codeNoAnchor l = true ↔
      (containsCl ";".data l = true ∨ containsCl "\x7b".data l = true ∨
       containsCl "\x7d".data l = true ∨ containsCl "#include".data l = true ∨
       containsCl "std::".data l = true) := by
  induction l with
  | nil => simp [scanAny, codeNoAnchor, containsCl, startsWithCl]
  | cons c cs ih =>
    have e0 : scanAny codeNoAnchor (c :: cs) =
        (codeNoAnchor (c :: cs) || scanAny codeNoAnchor cs) := rfl
    have e : ∀ p : List Char, containsCl p (c :: cs) =
        (startsWithCl p (c :: cs) || containsCl p cs) := fun _ => rfl
    rw [e0, e, e, e, e, e, codeNoAnchor]
    simp only [Bool.or_eq_true] at ih ⊢
    tauto

theorem shellTok_ws : ∀ (c : Char) (cs : List Char), isWS c = true →
    shellTok (c :: cs) = false := by
  intro c cs hc
  rw [shellTok,
    @startsWith_ws_false ("g++".data) c cs (by decide) (by decide) hc,
    @startsWith_ws_false ("./".data) c cs (by decide) (by decide) hc,
    @startsWith_ws_false ("npm ".data) c cs (by decide) (by decide) hc,
    @startsWith_ws_false ("yarn ".data) c cs (by decide) (by decide) hc,
    @startsWith_ws_false ("pnpm ".data) c cs (by decide) (by decide) hc]
  rfl

theorem codeAnchored_iff (l : Line) :
    codeAnchored l = true ↔
      (twoWsStart l = true ∨
       startsWithCl "//".data (trimLeftJS l) = true ∨
       startsWithCl "#".data (trimLeftJS l) = true ∨
       shellTok (trimLeftJS l) = true) := by
  rw [codeAnchored,
    wsStarThen_eq_dropWhile (fun c cs hc =>
      @startsWith_ws_false ("//".data) c cs (by decide) (by decide) hc) l,
    wsStarThen_eq_dropWhile (fun c cs hc =>
      @startsWith_ws_false ("#".data) c cs (by decide) (by decide) hc) l,
    wsStarThen_eq_dropWhile shellTok_ws l]
  simp only [Bool.or_eq_true]
  tauto

theorem impTok_ws (w : List Char) (hne : w ≠ []) (hh : isWS w.headI = false) :
    ∀ (c : Char) (cs : List Char), isWS c = true →
    impTok w (c :: cs) = false := by
  intro c cs hc
  rw [impTok, startsWith_ws_false hne hh hc, Bool.false_and]

theorem tsHit_iff (t : List Char) : tsHit t = true ↔ tsRuleSpec t := by
  rw [tsHit, tsRuleSpec,
    wsStarThen_eq_dropWhile (impTok_ws "import".data (by decide) (by decide))
      t,
    wsStarThen_eq_dropWhile (impTok_ws "export".data (by decide) (by decide))
      t]
  simp only [Bool.or_eq_true]
  tauto

theorem cleaned_bt3_free {s : List Char}
    (h : ∀ l ∈ splitNl s, containsCl bt3 l = false) :
    ∀ l ∈ cleanedLines s, containsCl bt3 l = false := by
  intro l hl
  obtain ⟨l0, hmem, _, rfl⟩ := cleanedLines_mem hl
  rw [Bool.eq_false_iff]
  intro hcon
  obtain ⟨u, hu⟩ := strip_isPrefix l0
  have h2 := containsCl_append_left u hcon
  rw [hu, h l0 hmem] at h2
  exact Bool.false_ne_true h2

theorem out_lines_cases {s : String} {l : Line}
    (h : l ∈ splitNl (normalizeAIContent s).data) :
    l = [] ∨ l ∈ cleanedLines s.data ∨ l = bt3 ∨
      ∃ b, l = bt3 ++ ((detectLang b).getD "").data := by
  have hdata : (normalizeAIContent s).data = normalizeCore s.data := rfl
  rw [hdata, normalize_staged] at h
  by_cases hp : pass (cleanedLines s.data) = []
  · rw [hp] at h
    simp only [joinNl, splitNl, List.mem_singleton] at h
    exact Or.inl h
  · rw [splitNl_joinNl hp (pass_no_nl (cleanedLines_no_nl s.data))] at h
    rcases passGo_mem (Nat.le_refl _) h with hm | rfl | ⟨b, rfl⟩
    · exact Or.inr (Or.inl hm)
    · exact Or.inr (Or.inr (Or.inl rfl))
    · exact Or.inr (Or.inr (Or.inr ⟨b, rfl⟩))

/-! ### The claims -/

/-- Claim C1: the specification demands that an input already containing a
well-formed fenced code block be returned byte-identical, the fenced
contents never re-classified as loose code lines. The code does not track
fences: on the fenced cpp snippet below, the three lines between the
fences are re-classified as code-like and wrapped in a second fence, so
the output differs from the input. -/
theorem c1_bug_eval :
    normalizeAIContent
        "\x60\x60\x60cpp\nint main() \x7b\n    return 0;\n\x7d\n\x60\x60\x60" =
      "\x60\x60\x60cpp\n\x60\x60\x60cpp\nint main() \x7b\n    return 0;\n\x7d\n\x60\x60\x60\n\x60\x60\x60" ∧
    normalizeAIContent
        "\x60\x60\x60cpp\nint main() \x7b\n    return 0;\n\x7d\n\x60\x60\x60" ≠
      "\x60\x60\x60cpp\nint main() \x7b\n    return 0;\n\x7d\n\x60\x60\x60" := by
  constructor
  · rfl
  · decide

/-- Claim C2: the specification demands idempotence on already-normalized
documents. The document below is an output of normalizeAIContent (the
normalization of a bare cpp snippet), yet normalizing it again re-wraps
the fenced contents, so the function is not idempotent on its own
outputs. -/
theorem c2_bug_eval :
    normalizeAIContent
        (normalizeAIContent "int main() \x7b\n    return 0;\n\x7d") ≠
      normalizeAIContent "int main() \x7b\n    return 0;\n\x7d" := by
  decide

/-- Claim C3: partition invariant. For every input, the grouped segments of
the cleaned line sequence concatenate back to exactly the artifact-stripped
lines, and the output of normalizeAIContent is exactly the rendering of
those segments (prose lines verbatim, code blocks between one added
fence-open and one added fence-close line). Deleting the added fence lines
from the output therefore reproduces the artifact-stripped input; the
whole-response fallback never fires, since a staged output without fence
markers cannot contain any hint. -/
theorem c3_partition (s : String) :
    (groupSegs (cleanedLines s.data)).flatMap segContents =
        cleanedLines s.data ∧
      normalizeAIContent s =
        String.mk (joinNl
          ((groupSegs (cleanedLines s.data)).flatMap emitSeg)) := by
  constructor
  · exact groupGo_contents (Nat.le_refl _)
  · rw [normalizeAIContent, normalize_staged]
    have he : (groupSegs (cleanedLines s.data)).flatMap emitSeg =
        pass (cleanedLines s.data) := groupGo_emit (Nat.le_refl _)
    rw [he]

/-- Claim C4, counterexample: the block below has a line starting with
the import keyword and a trailing whitespace, the cpp rule and the bash
rule both fail, yet detectLang returns no tag instead of the claimed ts:
rule 3 is anchored at the start of the joined blob (no multiline flag), so
an import on a later line is not seen. -/
theorem c4_counterexample :
    cppHit (joinNl ["hello".data, "import foo".data]) = false ∧
      bashHit (joinNl ["hello".data, "import foo".data]) = false ∧
      "import foo".data ∈ ["hello".data, "import foo".data] ∧
      startsWithCl "import ".data (trimLeftJS "import foo".data) = true ∧
      detectLang ["hello".data, "import foo".data] = none := by
  decide

/-- Claim C4, amended: detectLang returns the ts tag exactly when the cpp
rule and the bash rule fail and, after skipping the leading whitespace of
the whole joined blob (newlines included), the text starts with an import
or export keyword followed by a whitespace character, or the arrow token
occurs anywhere in the blob. -/
theorem c4_amended (bl : List Line) :
    detectLang bl = some "ts" ↔
      (cppHit (joinNl bl) = false ∧ bashHit (joinNl bl) = false ∧
        tsRuleSpec (joinNl bl)) := by
  simp only [detectLang]
  by_cases h1 : cppHit (joinNl bl) = true
  · rw [if_pos h1]
    simp [h1]
  · rw [if_neg h1]
    by_cases h2 : bashHit (joinNl bl) = true
    · rw [if_pos h2]
      simp [h2]
    · rw [if_neg h2]
      by_cases h3 : tsHit (joinNl bl) = true
      · rw [if_pos h3]
        simp only [Bool.not_eq_true] at h1 h2
        simp [h1, h2, (tsHit_iff _).mp h3]
      · rw [if_neg h3]
        have h4 : ¬tsRuleSpec (joinNl bl) := fun hcon =>
          h3 ((tsHit_iff _).mpr hcon)
        by_cases h5 : pyHit (joinNl bl) = true
        · rw [if_pos h5]
          simp [h4]
        · rw [if_neg h5]
          simp [h4]

/-- Claim C5: the code-line classifier returns true exactly when the line
is non-empty after trimming and carries at least one of the listed
signals; in particular empty and whitespace-only lines are never
code-like. -/
theorem c5_classifier (l : Line) : isCodeLine l = true ↔ codeLineSpec l := by
  simp only [isCodeLine, codeLineSpec, Bool.and_eq_true, Bool.or_eq_true]
  refine and_congr ?_ ?_
  · simp [List.isEmpty_iff]
  · rw [scan_codeNoAnchor_iff, codeAnchored_iff]
    tauto

/-- Claim C6: fallback wrapping. Whenever the final step receives a staged
output without fence markers that has strictly more than two lines and at
least two hint occurrences, it returns the whole trimmed response wrapped
in exactly one fence tagged by the sniffer applied to the cleaned line
set; and the three-assignment example is indeed returned wrapped once in a
single untagged fence, not left unfenced. -/
theorem c6_fallback :
    (∀ (cl : List Line) (res : List Char), containsCl bt3 res = false →
        (splitNl res).length > 2 → 2 ≤ hintCount res →
        finalize cl res = wrapAll cl res) ∧
      normalizeAIContent "x = 1;\ny = 2;\nz = 3;" =
        "\x60\x60\x60\nx = 1;\ny = 2;\nz = 3;\n\x60\x60\x60" := by
  constructor
  · intro cl res h1 h2 h3
    rw [finalize, if_neg (by rw [h1]; simp), if_pos ⟨h2, h3⟩]
  · rfl

/-- Witness for claim C6: the wrapping branch of the final step fires on a
concrete fence-free three-line response with three semicolons. -/
theorem c6_witness :
    finalize [] "a;\nb;\nc;".data = wrapAll [] "a;\nb;\nc;".data :=
  c6_fallback.1 [] "a;\nb;\nc;".data (by decide) (by decide) (by decide)

/-- Claim C7, counterexample: the input line below survives the artifact
filter (its trimmed content is not the bare word Copy), but the trailing
Copyhljs strip truncates it to exactly the word Copy, so the output does
contain a line whose trimmed content is exactly Copy. -/
theorem c7_counterexample :
    "Copy".data ∈
      (splitNl (normalizeAIContent "Copy   Copyhljs junk").data).map
        trimJS := by
  decide

/-- Claim C7, amended: for every input, no output line matches the
case-insensitive Copyhljs whole-word prefix test after trimming; and any
output line whose trimmed content is exactly Copy can only be the
trailing-artifact strip of a surviving input line whose own trimmed
content was not Copy (full Copy lines of the input are dropped). -/
theorem c7_amended (s : String) :
    ∀ l ∈ splitNl (normalizeAIContent s).data,
      copyhljsWB (trimJS l) = false ∧
        (trimJS l = "Copy".data →
          ∃ l0, l0 ∈ splitNl s.data ∧ keepLine l0 = true ∧
            trimJS l0 ≠ "Copy".data ∧ l = stripCopyhljs l0) := by
  intro l hl
  rcases out_lines_cases hl with rfl | hm | rfl | ⟨b, rfl⟩
  · exact ⟨by decide, fun hc => absurd hc (by decide)⟩
  · obtain ⟨l0, hmem, hkeep, rfl⟩ := cleanedLines_mem hm
    obtain ⟨hne, hwb⟩ := keepLine_facts hkeep
    exact ⟨copyhljsWB_strip hwb, fun _ => ⟨l0, hmem, hkeep, hne, rfl⟩⟩
  · exact ⟨by decide, fun hc => absurd hc (by decide)⟩
  · obtain ⟨hwb, hne⟩ := fence_line_facts b
    exact ⟨hwb, fun hc => absurd hc hne⟩

/-- Witness for claim C7: the amended statement evaluated on a concrete
prose input and its single output line. -/
theorem c7_witness :
    copyhljsWB (trimJS "hi".data) = false ∧
      (trimJS "hi".data = "Copy".data →
        ∃ l0, l0 ∈ splitNl "hi".data ∧ keepLine l0 = true ∧
          trimJS l0 ≠ "Copy".data ∧ "hi".data = stripCopyhljs l0) :=
  c7_amended "hi" "hi".data (by decide)

/-- Claim C8: priority ordering of the language sniffer. A blob containing
the include token is tagged cpp by rule 1 before rule 3 is ever consulted,
even when some line also starts with the import keyword, so such a blob is
never tagged ts. -/
theorem c8_priority (bl : List Line)
    (h1 : containsCl "#include".data (joinNl bl) = true)
    (h2 : ∃ l ∈ bl, startsWithCl "import ".data (trimLeftJS l) = true) :
    detectLang bl = some "cpp" ∧ detectLang bl ≠ some "ts" := by
  have hc : cppHit (joinNl bl) = true := by
    rw [cppHit, h1]
    simp
  constructor
  · simp only [detectLang]
    rw [if_pos hc]
  · simp only [detectLang]
    rw [if_pos hc]
    simp

/-- Witness for claim C8: a concrete block containing both the include
token and an import line is tagged cpp. -/
theorem c8_witness :
    detectLang ["#include <a>".data, "import x ".data] = some "cpp" ∧
      detectLang ["#include <a>".data, "import x ".data] ≠ some "ts" :=
  c8_priority ["#include <a>".data, "import x ".data] (by decide)
    ⟨"import x ".data, by decide, by decide⟩

/-- Claim C9: the end-to-end scenario. On the given input the two prose
lines pass through unfenced and the three code lines between them are
wrapped, in order and verbatim, in a single fence whose opening marker
carries the cpp tag. -/
theorem c9_scenario :
    normalizeAIContent
        "Here is code:\nint main() \x7b\n    return 0;\n\x7d\nDone." =
      "Here is code:\n\x60\x60\x60cpp\nint main() \x7b\n    return 0;\n\x7d\n\x60\x60\x60\nDone." := by
  rfl

/-- Claim C10: balanced fencing. For every input none of whose lines
contains a triple backtick, the fence-marker lines of the output are
exactly an alternating sequence of fence-open lines (a triple backtick
followed by a tag, possibly empty) and bare fence-close lines, so their
number is even and every opened fence is closed. -/
theorem c10_balanced (s : String)
    (h : ∀ l ∈ splitNl s.data, containsCl bt3 l = false) :
    ∃ tags : List (List Char),
      (splitNl (normalizeAIContent s).data).filter (containsCl bt3) =
        tags.flatMap (fun tg => [bt3 ++ tg, bt3]) := by
  have hdata : (normalizeAIContent s).data = normalizeCore s.data := rfl
  rw [hdata, normalize_staged]
  by_cases hp : pass (cleanedLines s.data) = []
  · rw [hp]
    exact ⟨[], rfl⟩
  · rw [splitNl_joinNl hp (pass_no_nl (cleanedLines_no_nl s.data))]
    exact passGo_filter (Nat.le_refl _) (cleaned_bt3_free h)

/-- Witness for claim C10: the fence lines of the normalization of a
concrete backtick-free input form alternating open and close pairs. -/
theorem c10_witness :
    ∃ tags : List (List Char),
      (splitNl (normalizeAIContent "int main() \x7b\n\x7d").data).filter
          (containsCl bt3) =
        tags.flatMap (fun tg => [bt3 ++ tg, bt3]) :=
  c10_balanced "int main() \x7b\n\x7d" (by decide)

end AIWrap
